import Mathlib

/-!
Shallow embedding of msu1-reverser (src/main.rs).

The program reads an MSU-1 PCM file (8-byte header, then interleaved
16-bit little-endian stereo sample frames of 4 bytes each) and writes a
time-reversed version. Bytes are modelled as `Nat`, 16/32-bit signed
machine integers as `Int` with explicit wrapping where the width matters,
fallible steps as `Option`/`Except`. The f32 gain computation
(`SILENT_LOG`, line 56) and the random dither draws (lines 48-50) are the
only parts not given a concrete embedding: they enter the fade routine as
oracle functions indexed by the current value of `fade_rem`, so every
theorem below holds for all possible gain and dither streams.
-/

/-- The four ASCII bytes of the magic string checked at line 32 of
main.rs and written at line 97. -/
def msu1Magic : List Nat := [77, 83, 85, 49]

/-- `u32::from_le_bytes` applied to header bytes 4..8 (line 35). -/
def u32le (b0 b1 b2 b3 : Nat) : Nat :=
  b0 + 256 * b1 + 65536 * b2 + 16777216 * b3

/-- `usize::to_le_bytes` (line 105). `fade_samples` has type `usize`,
which is 64 bits wide on the targets this program is built for, so the
write at line 105 emits eight bytes, not four. -/
def usize_to_le (n : Nat) : List Nat :=
  [n % 256, n / 256 % 256, n / 65536 % 256, n / 16777216 % 256,
   n / 4294967296 % 256, n / 1099511627776 % 256,
   n / 281474976710656 % 256, n / 72057594037927936 % 256]

/-- The distinct fatal ends of a run: the three `expect`/explicit aborts of
the header and length checks, the out-of-range slice at line 107, and the
overflowing `-= 1` on a `usize` loop counter (lines 63 and 71). -/
inductive Abort where
  | headerReadFail
  | badMagic
  | corruptLength
  | sliceIndexOob
  | subOverflow
  deriving DecidableEq

/-- `i16::from_le_bytes` on two payload bytes (lines 54-55). -/
def i16_from_le (b0 b1 : Nat) : Int :=
  let v := b0 % 256 + 256 * (b1 % 256)
  if v < 32768 then (v : Int) else (v : Int) - 65536

/-- `i16::to_le_bytes` (lines 60-61): the two little-endian bytes of the
16-bit two-complement encoding. -/
def i16_to_le (x : Int) : List Nat :=
  [((x % 65536).toNat) % 256, ((x % 65536).toNat) / 256]

/-- Reduction of an unbounded integer to the value the 32-bit signed
machine word holding it would carry (two-complement wrap). -/
def wrapI32 (x : Int) : Int := (x + 2147483648) % 4294967296 - 2147483648

/-- Reduction to a 16-bit signed machine word, used for the `as i16`
casts at lines 57-58. -/
def wrapI16 (x : Int) : Int := (x + 32768) % 65536 - 32768

/-- `i32::MIN`. -/
def i32Min : Int := -2147483648

/-- `i32::MAX`. -/
def i32Max : Int := 2147483647

/-- The i32 expression `sample as i32 * fade_magnitude + dither` of lines
57-58, before any overflow semantics are applied. -/
def rawScaled (s gain d : Int) : Int := s * gain + d

/-- Lines 57-58 in full: the product-sum on 32-bit words (wrapping
two-complement semantics of the release profile), the arithmetic right
shift by 16 (floor division by 65536), and the truncating `as i16` cast. -/
def scaleSample (s gain d : Int) : Int :=
  wrapI16 ((wrapI32 (rawScaled s gain d)).fdiv 65536)

/-- Body of the fade loop, lines 54-62: decode the left sample from bytes
0..2 of the chunk, decode the right sample from the same bytes 0..2 (the
source repeats `chunk[0..2]` at line 55 instead of using `chunk[2..4]`),
scale each by the gain with its own dither draw, and re-encode the two
results as a 4-byte frame. -/
def fadeFrame (gain d1 d2 : Int) (chunk : List Nat) : List Nat :=
  let left := i16_from_le (chunk.getD 0 0) (chunk.getD 1 0)
  let right := i16_from_le (chunk.getD 0 0) (chunk.getD 1 0)
  i16_to_le (scaleSample left gain d1) ++ i16_to_le (scaleSample right gain d2)

/-- `buf.chunks(4)` (lines 42 and 51): consecutive 4-byte chunks, the last
one shorter when the length is not a multiple of 4. -/
def chunks4 : List Nat → List (List Nat)
  | [] => []
  | [a] => [[a]]
  | [a, b] => [[a, b]]
  | [a, b, c] => [[a, b, c]]
  | a :: b :: c :: d :: rest => [a, b, c, d] :: chunks4 rest

/-- `write_reversed` (lines 41-45): emit the 4-byte chunks of `buf` in
reverse order, each chunk verbatim. -/
def write_reversed (buf : List Nat) : List Nat :=
  ((chunks4 buf).reverse).flatten

/-- The shared shape of the two loops of `write_reversed_with_fadein`
(lines 53-67 and 69-75): `loop { write body; counter -= 1; if counter == 0
break }` over the infinite cyclic iterator, entered at cycle position
`pos` with the `usize` counter at `r`. `body pos r` is the element written
by the iteration that starts at position `pos` with counter value `r`.
Returns the elements written, paired with `true` when the iteration
entered with the counter already at 0, so that the `-= 1` after the write
underflowed; the elements a release-profile build would go on to write
after that wrap are not modelled beyond the flag. -/
def doWhileLoop {α : Type} (body : Nat → Nat → α) : Nat → Nat → List α × Bool
  | pos, 0 => ([body pos 0], true)
  | pos, 1 => ([body pos 1], false)
  | pos, r + 2 =>
      let rest := doWhileLoop body (pos + 1) (r + 1)
      (body pos (r + 2) :: rest.1, rest.2)

/-- `write_reversed_with_fadein` (lines 47-76). `g r` is the oracle for
the i32 `fade_magnitude` computed by line 56 when `fade_rem = r`; `d1 r`
and `d2 r` are the two dither draws of that iteration. The iterator
`buf.chunks(4).rev().cycle()` is the index-modulo cursor `cyc`; when `buf`
is empty the cycled iterator is empty and both for-loops run zero
iterations. The first component is the byte stream written; the second is
`some .subOverflow` when one of the two counter decrements underflowed. -/
def write_reversed_with_fadein (g d1 d2 : Nat → Int) (buf : List Nat)
    (fade_samples : Nat) : List Nat × Option Abort :=
  let chunks := (chunks4 buf).reverse
  if chunks.length = 0 then ([], none)
  else
    let cyc := fun i => chunks.getD (i % chunks.length) []
    let fade := doWhileLoop (fun pos r => fadeFrame (g r) (d1 r) (d2 r) (cyc pos))
      0 fade_samples
    if fade.2 then (fade.1.flatten, some .subOverflow)
    else
      let rem := doWhileLoop (fun pos _ => cyc pos) fade_samples (buf.length / 4)
      ((fade.1 ++ rem.1).flatten, if rem.2 then some .subOverflow else none)

/-- `read_header` (lines 29-39) on the first eight bytes of the input
file: fails when fewer than eight bytes exist or the magic is wrong;
otherwise decodes header bytes 4..8 as a little-endian u32, `none` for 0
(no loop point) and `some x` otherwise. -/
def read_header (bytes : List Nat) : Except Abort (Option Nat) :=
  if bytes.length < 8 then .error .headerReadFail
  else if bytes.take 4 ≠ msu1Magic then .error .badMagic
  else
    let v := u32le (bytes.getD 4 0) (bytes.getD 5 0) (bytes.getD 6 0) (bytes.getD 7 0)
    if v = 0 then .ok none else .ok (some v)

/-- Observable outcome of a run of `main`: whether `File::create` on the
output path was reached, the bytes written to the output before the run
ended, and the abort that ended it, if any. -/
structure MainOutcome where
  created : Bool
  output : List Nat
  abort : Option Abort
  deriving DecidableEq

/-- `main` (lines 80-111) from the header read onward; the excluded CLI
layer has already produced `fade_samples` from `--fade-time`, and `input`
holds the whole input file. Order is as in the source: header read and
magic check, read of the payload, the length-multiple-of-4 check, only
then creation of the output file and the header writes, then either the
plain reversal (loop point absent) or the slice at the loop offset -
which aborts when `loop_point * 4` exceeds the payload length - followed
by the fade routine. -/
def runMain (g d1 d2 : Nat → Int) (fade_samples : Nat) (input : List Nat) :
    MainOutcome :=
  match read_header input with
  | .error a => ⟨false, [], some a⟩
  | .ok loop_point =>
    let all := input.drop 8
    if all.length % 4 ≠ 0 then ⟨false, [], some .corruptLength⟩
    else
      match loop_point with
      | none => ⟨true, msu1Magic ++ [0, 0, 0, 0] ++ write_reversed all, none⟩
      | some lp =>
        let start_offset := lp * 4
        if all.length < start_offset then
          ⟨true, msu1Magic ++ usize_to_le fade_samples, some .sliceIndexOob⟩
        else
          let res := write_reversed_with_fadein g d1 d2 (all.drop start_offset) fade_samples
          ⟨true, msu1Magic ++ usize_to_le fade_samples ++ res.1, res.2⟩

/-- A concrete looped input: valid header with loop point 5 and a payload
of 20 frames, as in the header round-trip scenario of the spec. -/
def sampleLoopedInput : List Nat := msu1Magic ++ [5, 0, 0, 0] ++ List.replicate 80 7

/-- The all-zero oracle, used where a concrete gain or dither stream is
needed for evaluation. -/
def zeroOracle : Nat → Int := fun _ => 0

/-! ## Lemmas about 4-byte chunking -/

/-- Concatenating the chunks of a buffer gives back the buffer. -/
theorem chunks4_flatten : ∀ l : List Nat, (chunks4 l).flatten = l
  | [] => rfl
  | [_] => rfl
  | [_, _] => rfl
  | [_, _, _] => rfl
  | a :: b :: c :: d :: rest => by
      simp [chunks4, chunks4_flatten rest]

/-- On a frame-aligned buffer every chunk has exactly 4 bytes: the chunker
never splits a frame across a boundary. -/
theorem chunks4_len4 : ∀ l : List Nat, l.length % 4 = 0 → ∀ c ∈ chunks4 l, c.length = 4
  | [], _, _, hc => by simp [chunks4] at hc
  | [_], h, _, _ => by simp at h
  | [_, _], h, _, _ => by simp at h
  | [_, _, _], h, _, _ => by simp at h
  | a :: b :: c :: d :: rest, h, e, he => by
      simp only [chunks4, List.mem_cons] at he
      rcases he with rfl | he
      · rfl
      · refine chunks4_len4 rest ?_ e he
        simp only [List.length_cons] at h
        omega

/-- A list of length 4 is a four-element list. -/
theorem exists_four (c : List Nat) (h : c.length = 4) :
    ∃ a b e d, c = [a, b, e, d] := by
  match c, h with
  | [a, b, e, d], _ => exact ⟨a, b, e, d, rfl⟩

/-- Chunking the concatenation of 4-byte chunks gives them back. -/
theorem chunks4_of_flatten4 : ∀ cs : List (List Nat),
    (∀ c ∈ cs, c.length = 4) → chunks4 cs.flatten = cs
  | [], _ => rfl
  | c :: cs, h => by
      obtain ⟨a, b, e, d, rfl⟩ := exists_four c (h c (List.mem_cons_self c cs))
      have ih := chunks4_of_flatten4 cs (fun x hx => h x (List.mem_cons_of_mem _ hx))
      simp [chunks4, ih]

/-- A nonempty buffer has at least one chunk. -/
theorem chunks4_ne_nil : ∀ l : List Nat, l ≠ [] → chunks4 l ≠ []
  | [], h => absurd rfl h
  | [_], _ => by simp [chunks4]
  | [_, _], _ => by simp [chunks4]
  | [_, _, _], _ => by simp [chunks4]
  | _ :: _ :: _ :: _ :: _, _ => by simp [chunks4]

/-- C7: for every buffer whose byte length is a multiple of 4, applying the
frame reversal of write_reversed twice reproduces the original buffer
exactly: reversal at 4-byte frame granularity is an involution, and frames
are never split across chunk boundaries. -/
theorem c7_reversal_involution (l : List Nat) (h : l.length % 4 = 0) :
    write_reversed (write_reversed l) = l := by
  unfold write_reversed
  rw [chunks4_of_flatten4 _ (fun c hc => chunks4_len4 l h c (List.mem_reverse.mp hc)),
    List.reverse_reverse, chunks4_flatten]

theorem c7_witness :
    ([1, 2, 3, 4, 5, 6, 7, 8] : List Nat).length % 4 = 0 ∧
    write_reversed (write_reversed [1, 2, 3, 4, 5, 6, 7, 8]) = [1, 2, 3, 4, 5, 6, 7, 8] :=
  ⟨by decide, c7_reversal_involution [1, 2, 3, 4, 5, 6, 7, 8] (by decide)⟩

/-! ## The two loops of the fade routine -/

/-- Closed form of a do-while pass entered with a positive counter: the
body runs once per counter value from `r` down to 1, advancing one cycle
position per iteration, and the counter never underflows. -/
theorem doWhileLoop_run {α : Type} (body : Nat → Nat → α) :
    ∀ r pos, 1 ≤ r →
      doWhileLoop body pos r
        = (((List.range r).map fun i => body (pos + i) (r - i)), false)
  | 0, _, h => absurd h (by omega)
  | 1, pos, _ => by simp [doWhileLoop, List.range_succ]
  | r + 2, pos, _ => by
      have ih := doWhileLoop_run body (r + 1) (pos + 1) (by omega)
      have hfun : (fun i => body (pos + 1 + i) (r + 1 - i))
          = fun i => body (pos + (i + 1)) (r + 2 - (i + 1)) := by
        funext i
        have h1 : pos + 1 + i = pos + (i + 1) := by omega
        have h2 : r + 1 - i = r + 2 - (i + 1) := by omega
        rw [h1, h2]
      simp [doWhileLoop, ih, List.range_succ_eq_map, List.map_map, hfun, Function.comp]

/-- Every frame the fade loop body emits is 4 bytes long. -/
theorem fadeFrame_length (gain d1 d2 : Int) (chunk : List Nat) :
    (fadeFrame gain d1 d2 chunk).length = 4 := by
  simp [fadeFrame, i16_to_le]

/-- Flattening a list of 4-byte frames gives 4 bytes per frame. -/
theorem flatten_length4 : ∀ cs : List (List Nat),
    (∀ c ∈ cs, c.length = 4) → cs.flatten.length = 4 * cs.length
  | [], _ => rfl
  | c :: cs, h => by
      have ih := flatten_length4 cs (fun x hx => h x (List.mem_cons_of_mem _ hx))
      have hc := h c (List.mem_cons_self c cs)
      simp only [List.flatten_cons, List.length_append, List.length_cons, ih, hc]
      omega

/-- Every element the cyclic cursor yields over the reversed chunks of a
nonempty frame-aligned buffer is a 4-byte frame. -/
theorem cyc_length4 (buf : List Nat) (h4 : buf.length % 4 = 0) (hne : buf ≠ [])
    (i : Nat) :
    (((chunks4 buf).reverse).getD (i % ((chunks4 buf).reverse).length) []).length = 4 := by
  have hn : ((chunks4 buf).reverse).length ≠ 0 := by
    simpa using chunks4_ne_nil buf hne
  have hlt : i % ((chunks4 buf).reverse).length < ((chunks4 buf).reverse).length :=
    Nat.mod_lt _ (Nat.pos_of_ne_zero hn)
  rw [List.getD_eq_getElem _ _ hlt]
  exact chunks4_len4 buf h4 _ (List.mem_reverse.mp (List.getElem_mem hlt))

/-! ## C1: payload length through the fade routine -/

/-- C1 fails on the code: the pass-through loop is seeded with the full
frame count of the buffer (line 68) regardless of how many frames the fade
loop already drew from the cycle, so the faded frames are emitted in
addition to one full pass. With a one-frame buffer and fade_samples = 1
the core writes 8 payload bytes for 4 input payload bytes. -/
theorem c1_counterexample :
    (write_reversed_with_fadein zeroOracle zeroOracle zeroOracle [1, 2, 3, 4] 1).1.length = 8 ∧
    ([1, 2, 3, 4] : List Nat).length = 4 ∧
    (write_reversed_with_fadein zeroOracle zeroOracle zeroOracle [1, 2, 3, 4] 1).1.length
      ≠ ([1, 2, 3, 4] : List Nat).length := by
  decide

/-- C1 (amended): for every nonempty frame-aligned buffer, every gain and
dither stream, and every fade_samples ≥ 1, the core terminates normally
and writes exactly fade_samples + total_frames_in_buffer frames, i.e. the
output payload is 4 × fade_samples bytes longer than the input payload:
the fade-in prefix is additional synthesized material and the pass-through
phase always emits one full pass of the buffer. -/
theorem c1_amended_output_length (g d1 d2 : Nat → Int) (buf : List Nat) (f : Nat)
    (h4 : buf.length % 4 = 0) (hne : buf ≠ []) (hf : 1 ≤ f) :
    (write_reversed_with_fadein g d1 d2 buf f).2 = none ∧
    (write_reversed_with_fadein g d1 d2 buf f).1.length = buf.length + 4 * f := by
  have hn : ((chunks4 buf).reverse).length ≠ 0 := by
    simpa using chunks4_ne_nil buf hne
  have hlen0 : buf.length ≠ 0 := by
    simpa using hne
  have hq : 1 ≤ buf.length / 4 := by omega
  have hfade := doWhileLoop_run
    (fun pos r => fadeFrame (g r) (d1 r) (d2 r)
      (((chunks4 buf).reverse).getD (pos % ((chunks4 buf).reverse).length) [])) f 0 hf
  have hrem := doWhileLoop_run
    (fun pos _ => ((chunks4 buf).reverse).getD (pos % ((chunks4 buf).reverse).length) [])
    (buf.length / 4) f hq
  simp only [write_reversed_with_fadein, if_neg hn, hfade, hrem, Bool.false_eq_true, if_false]
  refine ⟨trivial, ?_⟩
  rw [flatten_length4]
  · simp only [List.length_append, List.length_map, List.length_range]
    omega
  · intro c hc
    rcases List.mem_append.mp hc with hc | hc <;>
      obtain ⟨i, _, rfl⟩ := List.mem_map.mp hc
    · exact fadeFrame_length _ _ _ _
    · exact cyc_length4 buf h4 hne _

theorem c1_witness :
    (([1, 2, 3, 4] : List Nat).length % 4 = 0 ∧ ([1, 2, 3, 4] : List Nat) ≠ [] ∧ 1 ≤ 2) ∧
    ((write_reversed_with_fadein zeroOracle zeroOracle zeroOracle [1, 2, 3, 4] 2).2 = none ∧
     (write_reversed_with_fadein zeroOracle zeroOracle zeroOracle [1, 2, 3, 4] 2).1.length
       = ([1, 2, 3, 4] : List Nat).length + 4 * 2) :=
  ⟨⟨by decide, by decide, by decide⟩,
   c1_amended_output_length zeroOracle zeroOracle zeroOracle [1, 2, 3, 4] 2
     (by decide) (by decide) (by decide)⟩

/-! ## C3: fade loop at fade_samples = 0 -/

/-- C3 names a code bug: with fade_samples = 0 and a nonempty buffer the
fade loop still runs its body once - writing one gain-and-dither frame -
and the `fade_rem -= 1` that follows underflows the usize counter, instead
of fading zero frames and terminating normally. -/
theorem c3_fade_zero_underflow :
    (write_reversed_with_fadein zeroOracle zeroOracle zeroOracle [1, 2, 3, 4] 0).2
      = some Abort.subOverflow ∧
    (write_reversed_with_fadein zeroOracle zeroOracle zeroOracle [1, 2, 3, 4] 0).1.length
      = 4 := by
  decide

/-! ## C4: both channels decoded from the left sample bytes -/

/-- C4: in the fade phase both output samples of a frame are decoded from
bytes 0..2 of the input chunk. First conjunct: the emitted frame is
unchanged when the chunk is truncated to its first two bytes, so bytes
2..4 - the right sample bytes - are never read. Second conjunct: when the
two dither draws coincide, the left and right halves of the emitted frame
are identical, since both channels scale the same decoded value. -/
theorem c4_both_channels_from_left_bytes (gain d1 d2 d : Int) (chunk : List Nat) :
    fadeFrame gain d1 d2 chunk = fadeFrame gain d1 d2 (chunk.take 2) ∧
    (fadeFrame gain d d chunk).take 2 = (fadeFrame gain d d chunk).drop 2 := by
  constructor
  · rcases chunk with _ | ⟨a, _ | ⟨b, t⟩⟩ <;> rfl
  · simp [fadeFrame, i16_to_le]

/-! ## The header path of main -/

/-- With a well-formed header whose loop-point field is zero, read_header
reports the absence of a loop point. -/
theorem read_header_none (input : List Nat) (h8 : 8 ≤ input.length)
    (hm : input.take 4 = msu1Magic)
    (hz : u32le (input.getD 4 0) (input.getD 5 0) (input.getD 6 0) (input.getD 7 0) = 0) :
    read_header input = .ok none := by
  simp only [read_header]
  rw [if_neg (Nat.not_lt.mpr h8), if_neg (by simp [hm]), if_pos hz]

/-- With a well-formed header whose loop-point field is nonzero,
read_header reports that loop point. -/
theorem read_header_some (input : List Nat) (h8 : 8 ≤ input.length)
    (hm : input.take 4 = msu1Magic)
    (hz : u32le (input.getD 4 0) (input.getD 5 0) (input.getD 6 0) (input.getD 7 0) ≠ 0) :
    read_header input
      = .ok (some (u32le (input.getD 4 0) (input.getD 5 0) (input.getD 6 0) (input.getD 7 0))) := by
  simp only [read_header]
  rw [if_neg (Nat.not_lt.mpr h8), if_neg (by simp [hm]), if_neg hz]

/-! ## C5, C6, C9: the three branches of main -/

/-- C5: when the loop-point field of the input header is 0, main writes 0
as the four-byte second field of the output header and emits every payload
frame in reverse order byte-for-byte: the output is determined by the
input alone - the gain and dither oracles and fade_samples do not appear
in it - and its payload frames are exactly the input frames reversed. -/
theorem c5_noloop_verbatim_reversal (g d1 d2 : Nat → Int) (f : Nat) (input : List Nat)
    (h8 : 8 ≤ input.length) (hm : input.take 4 = msu1Magic)
    (hz : u32le (input.getD 4 0) (input.getD 5 0) (input.getD 6 0) (input.getD 7 0) = 0)
    (h4 : (input.drop 8).length % 4 = 0) :
    runMain g d1 d2 f input
      = ⟨true, msu1Magic ++ [0, 0, 0, 0] ++ write_reversed (input.drop 8), none⟩ ∧
    chunks4 (write_reversed (input.drop 8)) = (chunks4 (input.drop 8)).reverse := by
  have h4n : (input.length - 8) % 4 = 0 := by simpa using h4
  constructor
  · simp [runMain, read_header_none input h8 hm hz, h4n]
  · exact chunks4_of_flatten4 _
      (fun c hc => chunks4_len4 _ h4 c (List.mem_reverse.mp hc))

theorem c5_witness :
    runMain zeroOracle zeroOracle zeroOracle 7 (msu1Magic ++ [0, 0, 0, 0] ++ [1, 2, 3, 4, 5, 6, 7, 8])
      = ⟨true, msu1Magic ++ [0, 0, 0, 0]
          ++ write_reversed ((msu1Magic ++ [0, 0, 0, 0] ++ [1, 2, 3, 4, 5, 6, 7, 8]).drop 8), none⟩ ∧
    chunks4 (write_reversed ((msu1Magic ++ [0, 0, 0, 0] ++ [1, 2, 3, 4, 5, 6, 7, 8]).drop 8))
      = (chunks4 ((msu1Magic ++ [0, 0, 0, 0] ++ [1, 2, 3, 4, 5, 6, 7, 8]).drop 8)).reverse :=
  c5_noloop_verbatim_reversal zeroOracle zeroOracle zeroOracle 7 _
    (by decide) (by decide) (by decide) (by decide)

/-- C6: an input whose payload length is not a multiple of 4 is rejected
with the corruption diagnostic before the output file is created: the
outcome records no file creation and no bytes written. -/
theorem c6_corrupt_rejected_before_create (g d1 d2 : Nat → Int) (f : Nat)
    (input : List Nat) (h8 : 8 ≤ input.length) (hm : input.take 4 = msu1Magic)
    (h4 : (input.drop 8).length % 4 ≠ 0) :
    runMain g d1 d2 f input = ⟨false, [], some Abort.corruptLength⟩ := by
  have h4n : ¬ (input.length - 8) % 4 = 0 := by simpa using h4
  by_cases hz : u32le (input.getD 4 0) (input.getD 5 0) (input.getD 6 0) (input.getD 7 0) = 0
  · simp [runMain, read_header_none input h8 hm hz, h4n]
  · simp [runMain, read_header_some input h8 hm hz, h4n]

theorem c6_witness :
    runMain zeroOracle zeroOracle zeroOracle 7 (msu1Magic ++ [0, 0, 0, 0] ++ [1, 2, 3])
      = ⟨false, [], some Abort.corruptLength⟩ :=
  c6_corrupt_rejected_before_create zeroOracle zeroOracle zeroOracle 7 _
    (by decide) (by decide) (by decide)

/-- C9: when the loop-point field L is nonzero and 4 × L exceeds the
payload byte length, the run ends with the out-of-range slice abort of
line 107 - after the output file has been created and its header written -
rather than with a format diagnostic. -/
theorem c9_loop_slice_oob (g d1 d2 : Nat → Int) (f : Nat) (input : List Nat)
    (h8 : 8 ≤ input.length) (hm : input.take 4 = msu1Magic)
    (h4 : (input.drop 8).length % 4 = 0)
    (hz : u32le (input.getD 4 0) (input.getD 5 0) (input.getD 6 0) (input.getD 7 0) ≠ 0)
    (hoob : (input.drop 8).length
      < u32le (input.getD 4 0) (input.getD 5 0) (input.getD 6 0) (input.getD 7 0) * 4) :
    runMain g d1 d2 f input
      = ⟨true, msu1Magic ++ usize_to_le f, some Abort.sliceIndexOob⟩ := by
  have h4n : (input.length - 8) % 4 = 0 := by simpa using h4
  have hrh := read_header_some input h8 hm hz
  have hoobn : input.length - 8
      < u32le (input[4]?.getD 0) (input[5]?.getD 0) (input[6]?.getD 0) (input[7]?.getD 0) * 4 := by
    simpa [List.getD_eq_getElem?_getD] using hoob
  simp [runMain, hrh, h4n, hoobn]

theorem c9_witness :
    runMain zeroOracle zeroOracle zeroOracle 7 (msu1Magic ++ [2, 0, 0, 0] ++ [1, 2, 3, 4])
      = ⟨true, msu1Magic ++ usize_to_le 7, some Abort.sliceIndexOob⟩ :=
  c9_loop_slice_oob zeroOracle zeroOracle zeroOracle 7 _
    (by decide) (by decide) (by decide) (by decide) (by decide)

/-! ## C2: the output header field on the looped path -/

/-- C2 names a code bug: on the looped path, line 105 writes
`fade_samples.to_le_bytes()` for a `usize` fade_samples, which is eight
bytes on the 64-bit targets this program is built for, not four. On a
valid looped input with fade_samples = 3 the output continues with
[3,0,0,0,0,0,0,0] after the magic - bytes 8..12 of the output hold the
upper half of the 64-bit field, not the first payload frame - and the
total output is 12 + 72 bytes, not 8 + 72. -/
theorem c2_usize_header_field :
    (runMain zeroOracle zeroOracle zeroOracle 3 sampleLoopedInput).output.take 12
      = msu1Magic ++ [3, 0, 0, 0, 0, 0, 0, 0] ∧
    (usize_to_le 3).length = 8 ∧
    (runMain zeroOracle zeroOracle zeroOracle 3 sampleLoopedInput).output.length = 84 := by
  decide

/-! ## C10: range of the fade arithmetic -/

/-- C10 as stated is false: it admits gain = 65536, and at sample -32768,
gain 65536, dither -32768 the 32-bit product-sum of line 57 is
-2147516416, strictly below i32::MIN. -/
theorem c10_counterexample :
    rawScaled (-32768) 65536 (-32768) = -2147516416 ∧
    rawScaled (-32768) 65536 (-32768) < i32Min := by
  decide

/-- A 32-bit word carrying a value already in the i32 range carries it
unchanged. -/
theorem wrapI32_eq_self (x : Int) (h1 : i32Min ≤ x) (h2 : x ≤ i32Max) :
    wrapI32 x = x := by
  unfold i32Min at h1
  unfold i32Max at h2
  unfold wrapI32
  rw [Int.emod_eq_of_lt (by omega) (by omega)]
  omega

/-- A 16-bit word carrying a value already in the i16 range carries it
unchanged. -/
theorem wrapI16_eq_self (x : Int) (h1 : -32768 ≤ x) (h2 : x ≤ 32767) :
    wrapI16 x = x := by
  unfold wrapI16
  rw [Int.emod_eq_of_lt (by omega) (by omega)]
  omega

/-- C10 (amended): with the gain bounded by 65535 - the largest value the
truncation of exp(negative) × 65536 can produce - the 32-bit product-sum
of the fade loop stays within the i32 range, its extreme attainable value
is exactly -2147483648 (reached at sample -32768, gain 65535, dither
-32768), the arithmetic shift right by 16 lands in the i16 range, and the
final cast to i16 leaves the shifted value unchanged. -/
theorem c10_amended_no_overflow (s gain d : Int)
    (hs1 : -32768 ≤ s) (hs2 : s ≤ 32767)
    (hg1 : 0 ≤ gain) (hg2 : gain ≤ 65535)
    (hd1 : -32768 ≤ d) (hd2 : d ≤ 32768) :
    (i32Min ≤ rawScaled s gain d ∧ rawScaled s gain d ≤ i32Max) ∧
    rawScaled (-32768) 65535 (-32768) = i32Min ∧
    (-32768 ≤ (rawScaled s gain d).fdiv 65536 ∧ (rawScaled s gain d).fdiv 65536 ≤ 32767) ∧
    scaleSample s gain d = (rawScaled s gain d).fdiv 65536 := by
  have hA : (-32768 : Int) * gain ≤ s * gain := mul_le_mul_of_nonneg_right hs1 hg1
  have hB : (-32768 : Int) * 65535 ≤ (-32768 : Int) * gain :=
    mul_le_mul_of_nonpos_left hg2 (by norm_num)
  have hC : s * gain ≤ 32767 * gain := mul_le_mul_of_nonneg_right hs2 hg1
  have hD : (32767 : Int) * gain ≤ 32767 * 65535 :=
    mul_le_mul_of_nonneg_left hg2 (by norm_num)
  have hlow : (-2147483648 : Int) ≤ rawScaled s gain d := by
    unfold rawScaled
    nlinarith
  have hup : rawScaled s gain d ≤ 2147418113 := by
    unfold rawScaled
    nlinarith
  have hfd : (rawScaled s gain d).fdiv 65536 = rawScaled s gain d / 65536 :=
    Int.fdiv_eq_ediv _ (by norm_num)
  have hlo2 : (-32768 : Int) ≤ (rawScaled s gain d).fdiv 65536 := by
    rw [hfd]
    calc (-32768 : Int) = (-2147483648 : Int) / 65536 := by decide
      _ ≤ rawScaled s gain d / 65536 := Int.ediv_le_ediv (by norm_num) hlow
  have hhi2 : (rawScaled s gain d).fdiv 65536 ≤ 32767 := by
    rw [hfd]
    calc rawScaled s gain d / 65536
        ≤ (2147418113 : Int) / 65536 := Int.ediv_le_ediv (by norm_num) hup
      _ = 32767 := by decide
  refine ⟨⟨hlow, by unfold i32Max; omega⟩, by decide, ⟨hlo2, hhi2⟩, ?_⟩
  unfold scaleSample
  rw [wrapI32_eq_self _ hlow (by unfold i32Max; omega)]
  exact wrapI16_eq_self _ hlo2 hhi2

theorem c10_witness :
    ((-32768 : Int) ≤ -32768 ∧ (-32768 : Int) ≤ 32767 ∧ (0 : Int) ≤ 65535 ∧
     (65535 : Int) ≤ 65535 ∧ (-32768 : Int) ≤ -32768 ∧ (-32768 : Int) ≤ 32768) ∧
    ((i32Min ≤ rawScaled (-32768) 65535 (-32768) ∧ rawScaled (-32768) 65535 (-32768) ≤ i32Max) ∧
     rawScaled (-32768) 65535 (-32768) = i32Min ∧
     (-32768 ≤ (rawScaled (-32768) 65535 (-32768)).fdiv 65536 ∧
      (rawScaled (-32768) 65535 (-32768)).fdiv 65536 ≤ 32767) ∧
     scaleSample (-32768) 65535 (-32768) = (rawScaled (-32768) 65535 (-32768)).fdiv 65536) :=
  ⟨⟨by decide, by decide, by decide, by decide, by decide, by decide⟩,
   c10_amended_no_overflow (-32768) 65535 (-32768)
     (by decide) (by decide) (by decide) (by decide) (by decide) (by decide)⟩
